import Mathlib

/-!
Verification development for the JExTile navigation-and-editing engine
(`src/App.tsx`: history manager, path resolver, itemizer, reorder engine,
selection state machine, delete handler, drag handlers).

The JSON data model and every operation below are shallow embeddings of the
TypeScript source.  JavaScript `Set<number>` values are modelled as `List ℕ`
of their (distinct) elements in insertion order; `Array.prototype.sort` is
modelled by `List.insertionSort`, which computes the same (sorted) result on
the distinct numeric inputs the code sorts.  `null`-able React state fields
are modelled with `Option`.
-/

set_option maxHeartbeats 1000000

/-- A JSON value.  Objects are insertion-ordered association lists, as in
JavaScript.  Numbers are modelled as integers (no claim depends on numeric
arithmetic). -/
inductive Json where
  | null : Json
  | bool (b : Bool) : Json
  | num (n : Int) : Json
  | str (s : String) : Json
  | arr (items : List Json) : Json
  | obj (entries : List (String × Json)) : Json

/-- A path segment: an array index or an object key (TS `string | number`). -/
inductive Key where
  | idx (n : ℕ) : Key
  | str (s : String) : Key
deriving DecidableEq

/-- One displayed child of the current node: `{ name, value }` in `JsonGrid`. -/
structure Item where
  name : Key
  value : Json

/-- The JS test `Array.isArray(v)`. -/
def Json.isArr : Json → Bool
  | Json.arr _ => true
  | _ => false

/-- The JS test `typeof v === 'object' && v !== null`: true for objects and arrays. -/
def Json.isJsObject : Json → Bool
  | Json.obj _ => true
  | Json.arr _ => true
  | _ => false

/-- The JS test `typeof v === 'object'`: objects, arrays and `null`. -/
def Json.isJsTypeofObject : Json → Bool
  | Json.obj _ => true
  | Json.arr _ => true
  | Json.null => true
  | _ => false

/-- A genuine JSON object (mapping), the spec's notion of "object". -/
def Json.isObject : Json → Bool
  | Json.obj _ => true
  | _ => false

/-- The spec's root invariant: an ordered sequence of JSON objects. -/
def Json.isObjectArray : Json → Bool
  | Json.arr items => items.all Json.isObject
  | _ => false

/-- The JS coercion `Number(name)` for an item name: defined for index names (the only case
the array branch of the delete handler reaches, since array items are named
by their indices). -/
def Key.idxNat : Key → Option ℕ
  | Key.idx n => some n
  | Key.str _ => none

/-- The JS string coercion `name as string` of an item name. -/
def Key.asString : Key → String
  | Key.idx n => toString n
  | Key.str s => s

/-!  ## Loading (`processJsonData`, App.tsx)  -/

/-- Source `processJsonData` (App.tsx): computes `dataToDisplay` from a decoded JSON
value and either installs it as a fresh document (`some`) or rejects the load
with an error (`none`).

* array input: keep the elements with `typeof item === 'object' && item !== null`;
* object input: use the first property value that is a non-empty array whose
  first element has `typeof === 'object'` (note: this includes `null` and
  arrays), else wrap the object itself in a singleton list;
* otherwise `dataToDisplay` stays empty;
* an empty `dataToDisplay` is rejected with an error message. -/
def processJsonData : Json → Option (List Json)
  | Json.arr items =>
    let dataToDisplay := items.filter Json.isJsObject
    if dataToDisplay.isEmpty then none else some dataToDisplay
  | Json.obj entries =>
    let possibleArray := (entries.map Prod.snd).find? fun v =>
      match v with
      | Json.arr l => !l.isEmpty && (match l.head? with
          | some h => h.isJsTypeofObject
          | none => false)
      | _ => false
    let dataToDisplay := match possibleArray with
      | some (Json.arr l) => l
      | _ => [Json.obj entries]
    if dataToDisplay.isEmpty then none else some dataToDisplay
  | _ => none

/-!  ## History manager (App.tsx)  -/

def MAX_HISTORY : ℕ := 50

/-- The history state: `{past, present, future}`.  `present` is `null` before
any file is loaded, hence the `Option`. -/
structure HistoryState (α : Type*) where
  past : List α
  present : Option α
  future : List α
deriving DecidableEq

/-- Source `handleDataUpdate` (App.tsx): push.  No-op when `present` is null;
otherwise appends `present` to `past`, evicting the oldest entry (`shift()`)
when the bound is exceeded, installs the new document and clears `future`. -/
def handleDataUpdate {α : Type*} (curr : HistoryState α) (newData : α) : HistoryState α :=
  match curr.present with
  | none => curr
  | some p =>
    let grown := curr.past ++ [p]
    let newPast := if MAX_HISTORY < grown.length then grown.tail else grown
    { past := newPast, present := some newData, future := [] }

/-- Source `undo` (App.tsx): no-op on empty `past`; otherwise pops the last entry of
`past` into `present` and prepends the previous `present` to `future`.
(The source reads `curr.present!`; the unreachable `null` case contributes
nothing to `future` here.) -/
def undo {α : Type*} (curr : HistoryState α) : HistoryState α :=
  match curr.past.getLast? with
  | none => curr
  | some previous =>
    { past := curr.past.dropLast
      present := some previous
      future := curr.present.toList ++ curr.future }

/-- Source `redo` (App.tsx): no-op on empty `future`; otherwise shifts the first
entry of `future` into `present` and appends the previous `present` to
`past`.  (Again `curr.present!` is modelled via `Option.toList`.) -/
def redo {α : Type*} (curr : HistoryState α) : HistoryState α :=
  match curr.future with
  | [] => curr
  | next :: rest =>
    { past := curr.past ++ curr.present.toList
      present := some next
      future := rest }

/-- History states reachable by the app: the initial null state, loading a
file (`processJsonData` / `handleRawSave` install `{past: [], present: d,
future: []}`), reset, and the three history operations. -/
inductive HistReachable {α : Type*} : HistoryState α → Prop where
  | init : HistReachable ⟨[], none, []⟩
  | load (h : HistoryState α) (d : α) : HistReachable h → HistReachable ⟨[], some d, []⟩
  | reset (h : HistoryState α) : HistReachable h → HistReachable ⟨[], none, []⟩
  | push (h : HistoryState α) (d : α) : HistReachable h → HistReachable (handleDataUpdate h d)
  | undo (h : HistoryState α) : HistReachable h → HistReachable (undo h)
  | redo (h : HistoryState α) : HistReachable h → HistReachable (redo h)

/-!  ## Path resolver (`currentLevelData`, `setDeep`, `updateDataAtCurrentPath`)  -/

/-- One step of indexing, `current[key]`.  App paths are built from item
names, so array levels are addressed by `Key.idx` and object levels by
`Key.str`; the two mismatched cases below never arise on drilled paths and
are modelled as lookup failures. -/
def childAt : Json → Key → Option Json
  | Json.arr a, Key.idx i => a.get? i
  | Json.obj o, Key.str k => o.lookup k
  | _, _ => none

/-- Source `currentLevelData` (JsonGrid): walks the path through the document;
returns `none` when an intermediate value is not a container or a segment is
missing (the source returns `null`/`undefined` there). -/
def getPath : Json → List Key → Option Json
  | v, [] => some v
  | v, k :: rest =>
    if v.isJsObject then
      match childAt v k with
      | some c => getPath c rest
      | none => none
    else none

/-- Every segment of the path indexes an existing entry of a container: the
paths reachable by legal drills. -/
def legalPath : Json → List Key → Bool
  | _, [] => true
  | v, k :: rest =>
    match childAt v k with
    | some c => legalPath c rest
    | none => false

/-- The JS assignment `copy[head] = newChild` on a shallow clone of an object: an existing
key keeps its position and gets the new value, a new key is appended. -/
def objSet : List (String × Json) → String → Json → List (String × Json)
  | [], k, v => [(k, v)]
  | p :: rest, k, v => if p.1 = k then (k, v) :: rest else p :: objSet rest k v

/-- The JS assignment `copy[head] = newChild` after cloning the current level
(`Array.isArray(obj) ? [...obj] : {...obj}`).  The mismatched/primitive
cases never arise on the drilled paths the app constructs (see `childAt`)
and leave the value unchanged. -/
def setChild : Json → Key → Json → Json
  | Json.arr a, Key.idx i, c => Json.arr (a.set i c)
  | Json.obj o, Key.str k, c => Json.obj (objSet o k c)
  | d, _, _ => d

/-- The container synthesized when the next segment is missing: guided by the
type of the following segment (`typeof rest[0] === 'number'` ⇒ array, else
object). -/
def emptyForRest : List Key → Json
  | Key.idx _ :: _ => Json.arr []
  | _ => Json.obj []

/-- Source `setDeep` (JsonGrid, `updateDataAtCurrentPath` / `handleModalSave`):
rebuilds the chain of containers along the path, reusing every untouched
subtree. -/
def setDeep : Json → List Key → Json → Json
  | _, [], value => value
  | d, head :: rest, value =>
    let nextObj := match childAt d head with
      | some c => c
      | none => emptyForRest rest
    setChild d head (setDeep nextObj rest value)

/-- Source `updateDataAtCurrentPath` (JsonGrid): rebuild the root along the current
path; a `set` at the empty path whose result is not an array is rejected
(`console.error`, no `onUpdate`), modelled as `none`.  `some newRoot` means
the update is propagated to the history via `onUpdate`. -/
def updateDataAtCurrentPath (fileData : Json) (path : List Key) (newData : Json) :
    Option Json :=
  let newRoot := setDeep fileData path newData
  if path.isEmpty && !newRoot.isArr then none else some newRoot

/-!  ## Itemizer  -/

/-- Source `allItems` (JsonGrid): array ⇒ `(index, value)` items in order, object ⇒
`(key, value)` items in insertion order, primitive or null ⇒ no items. -/
def itemize : Json → List Item
  | Json.arr a => a.enum.map fun p => ⟨Key.idx p.1, p.2⟩
  | Json.obj o => o.map fun p => ⟨Key.str p.1, p.2⟩
  | _ => []

/-!  ## Selection clamp (`JsonGrid` safety effect)  -/

/-- The "Safety" effect of `JsonGrid`: when a focus is present and the list
shrank, clear focus and selection on an empty list, else clamp an
out-of-range focus to the last index and drop out-of-range selected indices.
Returns the new `(selectedIndices, focusedIndex)`. -/
def clampSel (len : ℕ) (sel : List ℕ) (focus : Option ℕ) : List ℕ × Option ℕ :=
  match focus with
  | none => (sel, none)
  | some f =>
    if len = 0 then ([], none)
    else if len ≤ f then (sel.filter (fun i => decide (i < len)), some (len - 1))
    else (sel, some f)

/-!  ## Reorder engine (`moveItemsDirect`, JsonGrid)  -/

/-- The item-list part of `moveItemsDirect`: sort the source indices
ascending, split the list into the items to move (in ascending index order)
and the items to stay (in order), compute the insertion point
`targetIndex - |{m ∈ M : m < targetIndex}|` clamped to `[0, |stay|]`, and
splice the moved block in.  Returns `(newItems, insertionIndex, |move|)`. -/
def reorderCore {α : Type*} (allItems : List α) (indicesToMove : List ℕ) (targetIndex : ℕ) :
    List α × ℕ × ℕ :=
  let indices := indicesToMove.insertionSort (· ≤ ·)
  let itemsToMove := indices.filterMap fun i => allItems.get? i
  let itemsToStay := (allItems.enum.filter fun p => !(indicesToMove.contains p.1)).map Prod.snd
  let numSelectedBeforeTarget := (indices.filter fun i => decide (i < targetIndex)).length
  let insertionIndex := min (targetIndex - numSelectedBeforeTarget) itemsToStay.length
  (itemsToStay.take insertionIndex ++ itemsToMove ++ itemsToStay.drop insertionIndex,
   insertionIndex, itemsToMove.length)

/-- The outcome of a committed move: the value handed to
`updateDataAtCurrentPath` (hence `Option Json`: `none` when the root-shape
guard rejects it) and the new selection, focus and anchor. -/
structure MoveOutcome where
  update : Option Json
  selectedIndices : List ℕ
  focusedIndex : ℕ
  anchorIndex : ℕ

/-- Rebuild the container value from the reordered item list: arrays from the
values in order, otherwise an object rebuilt by inserting each `(name, value)`
pair in order. -/
def rebuildLevel (currentLevelData : Json) (newItems : List Item) : Json :=
  match currentLevelData with
  | Json.arr _ => Json.arr (newItems.map Item.value)
  | _ => Json.obj (newItems.map fun it => (it.name.asString, it.value))

/-- Source `moveItemsDirect` (JsonGrid): the keyboard "move block" command.  `none`
when a filter is active or nothing is selected; otherwise reorders, updates
the document at the current path, and selects the moved block
`[insertionIndex, insertionIndex + |move|)` with focus and anchor at
`insertionIndex`. -/
def moveItemsDirect (searchTerm : String) (allItems : List Item)
    (currentLevelData fileData : Json) (path : List Key)
    (indicesToMove : List ℕ) (targetIndex : ℕ) : Option MoveOutcome :=
  if searchTerm ≠ "" then none
  else if indicesToMove.insertionSort (· ≤ ·) = [] then none
  else
    let r := reorderCore allItems indicesToMove targetIndex
    some { update := updateDataAtCurrentPath fileData path (rebuildLevel currentLevelData r.1)
           selectedIndices := (List.range r.2.2).map (r.2.1 + ·)
           focusedIndex := r.2.1
           anchorIndex := r.2.1 }

/-!  ## Drag handlers (JsonGrid)  -/

/-- The one-shot drag context captured at drag start (`dragDataRef`). -/
structure DragData where
  sourceIndex : ℕ
  indicesToMove : List ℕ
  itemsSnapshot : List Item

/-- The mutable drag bookkeeping: the drag context, the authoritative drop
target (`dropTargetRef`), the advisory visual target (`dropTargetIndex`
state) and the dragged index state. -/
structure DragRefs where
  dragData : Option DragData
  dropTarget : Option ℕ
  dropTargetIndex : Option ℕ
  draggedIndex : Option ℕ

/-- Source `onDragEnd` (JsonGrid): commits the move from the snapshot in the drag
context and the target captured in `dropTargetRef`, then unconditionally
discards the drag context and resets the drop-target state.  The body of the
move is the source's verbatim duplicate of the `moveItemsDirect` algorithm,
reading from the snapshot. -/
def onDragEnd (searchTerm : String) (refs : DragRefs)
    (currentLevelData fileData : Json) (path : List Key) :
    Option MoveOutcome × DragRefs :=
  let outcome : Option MoveOutcome :=
    match refs.dragData, refs.dropTarget with
    | some dragData, some targetIndex =>
      if searchTerm ≠ "" then none
      else
        let indices := dragData.indicesToMove.insertionSort (· ≤ ·)
        if indices = [] then none
        else
          let itemsToMove := indices.filterMap fun i => dragData.itemsSnapshot.get? i
          let itemsToStay := (dragData.itemsSnapshot.enum.filter
            fun p => !(dragData.indicesToMove.contains p.1)).map Prod.snd
          let numSelectedBeforeTarget := (indices.filter fun i => decide (i < targetIndex)).length
          let insertionIndex := min (targetIndex - numSelectedBeforeTarget) itemsToStay.length
          let newItems := itemsToStay.take insertionIndex ++ itemsToMove ++
            itemsToStay.drop insertionIndex
          some { update := updateDataAtCurrentPath fileData path
                   (rebuildLevel currentLevelData newItems)
                 selectedIndices := (List.range itemsToMove.length).map (insertionIndex + ·)
                 focusedIndex := insertionIndex
                 anchorIndex := insertionIndex }
    | _, _ => none
  (outcome, ⟨none, none, none, none⟩)

/-!  ## Delete handler (`handleDelete`, JsonGrid)  -/

/-- The JS `Math.min(...)` over the (nonempty) list of indices to delete. -/
def minList : List ℕ → ℕ
  | [] => 0
  | x :: xs => xs.foldl min x

/-- Descending-order splice removal: `indicesToDelete.forEach(idx => ...
newArray.splice(idx, 1))` with the source's bounds guard. -/
def spliceOut {α : Type*} (arr : List α) (idxs : List ℕ) : List α :=
  idxs.foldl (fun acc i => if i < acc.length then acc.eraseIdx i else acc) arr

/-- Source `handleDelete` (JsonGrid): choose the local indices to delete (an
explicit trashcan target, the selection, or the focused item), keep only
those that exist in the current (filtered) item list, map them to actual
items, and remove them from the container — arrays by true index (the item
names) in descending order, objects by key.  Clears the selection and moves
focus to the smallest deleted local index.
Returns `(newContainer, selectedIndices, focusedIndex)`; a no-op returns the
inputs unchanged. -/
def handleDelete (currentData : List Item) (currentLevelData : Json)
    (selectedIndices : List ℕ) (focusedIndex : Option ℕ) (targetIndex : Option ℕ) :
    Json × List ℕ × Option ℕ :=
  let localIndices : List ℕ :=
    match targetIndex with
    | some t => if selectedIndices.contains t then selectedIndices else [t]
    | none =>
      if !selectedIndices.isEmpty then selectedIndices
      else match focusedIndex with
        | some f => [f]
        | none => []
  if localIndices.isEmpty then (currentLevelData, selectedIndices, focusedIndex)
  else
    let valid := localIndices.filter fun i => decide (i < currentData.length)
    if valid.isEmpty then (currentLevelData, selectedIndices, focusedIndex)
    else
      let itemsToDelete := valid.filterMap fun i => currentData.get? i
      let newData : Json :=
        match currentLevelData with
        | Json.arr a =>
          let indicesToDelete :=
            (itemsToDelete.filterMap fun it => it.name.idxNat).insertionSort (· ≥ ·)
          Json.arr (spliceOut a indicesToDelete)
        | Json.obj o =>
          Json.obj (itemsToDelete.foldl
            (fun acc it => acc.filter fun p => !(p.1 = it.name.asString)) o)
        | other => other
      (newData, [], some (minList valid))

/-- A delete as the app performs it on an unfiltered view: `handleDelete` on
`itemize currentLevelData`, followed by the selection-clamp safety effect
against the new item list. -/
def deleteStep (currentLevelData : Json) (selectedIndices : List ℕ)
    (focusedIndex : Option ℕ) (targetIndex : Option ℕ) : Json × List ℕ × Option ℕ :=
  let r := handleDelete (itemize currentLevelData) currentLevelData
    selectedIndices focusedIndex targetIndex
  let clamped := clampSel (itemize r.1).length r.2.1 r.2.2
  (r.1, clamped.1, clamped.2)

/-!  ## Selection / focus state machine (JsonGrid)  -/

/-- The JS `Set.add` keeping insertion order, no duplicates. -/
def setAdd (l : List ℕ) (i : ℕ) : List ℕ :=
  if l.contains i then l else l ++ [i]

/-- Ctrl/Cmd-click toggle on the selection set. -/
def toggleSel (l : List ℕ) (i : ℕ) : List ℕ :=
  if l.contains i then l.erase i else setAdd l i

/-- The contiguous range `[start, end]` built by the shift-click loop. -/
def rangeSel (s e : ℕ) : List ℕ := List.range' s (e + 1 - s)

/-- The selection-relevant state of `JsonGrid`: the current (filtered) item
list and the focus/selection/anchor fields. -/
structure SelState (α : Type*) where
  items : List α
  selectedIndices : List ℕ
  focusedIndex : Option ℕ
  anchorIndex : Option ℕ
deriving DecidableEq

/-- The selection-relevant events of `JsonGrid`.  Clicks carry the index of a
rendered card (always below the list length).  `dataChange` is any change of
the current item list that does not go through a path change: a delete, an
undo/redo, a modal edit, or a search-term change.  `pathReset` is the
path-change effect that clears search, focus, selection and anchor. -/
inductive SelEvent (α : Type*) where
  | plainClick (i : ℕ)
  | ctrlClick (i : ℕ)
  | shiftClick (i : ℕ)
  | escape
  | dataChange (newItems : List α)
  | pathReset (newItems : List α)

/-- The raw handler for each event (`handleCardClick`, the Escape branch of
the keydown handler, and the item-list recomputation). -/
def applyEvent {α : Type*} (s : SelState α) : SelEvent α → SelState α
  | SelEvent.plainClick i =>
    if i < s.items.length then
      { s with selectedIndices := [i], focusedIndex := some i, anchorIndex := some i }
    else s
  | SelEvent.ctrlClick i =>
    if i < s.items.length then
      { s with selectedIndices := toggleSel s.selectedIndices i,
               focusedIndex := some i, anchorIndex := some i }
    else s
  | SelEvent.shiftClick i =>
    if i < s.items.length then
      match s.anchorIndex with
      | some a =>
        { s with selectedIndices := rangeSel (min a i) (max a i), focusedIndex := some i }
      | none =>
        { s with selectedIndices := [i], focusedIndex := some i, anchorIndex := some i }
    else s
  | SelEvent.escape =>
    match s.focusedIndex with
    | some _ => { s with focusedIndex := none, selectedIndices := [] }
    | none => s
  | SelEvent.dataChange l => { s with items := l }
  | SelEvent.pathReset l =>
    { items := l, selectedIndices := [], focusedIndex := none, anchorIndex := none }

/-- One observable transition: the handler followed by the safety clamp
effect (React runs the effect after every state change). -/
def selStep {α : Type*} (s : SelState α) (e : SelEvent α) : SelState α :=
  let t := applyEvent s e
  let clamped := clampSel t.items.length t.selectedIndices t.focusedIndex
  { t with selectedIndices := clamped.1, focusedIndex := clamped.2 }

/-- Run a sequence of events. -/
def selRun {α : Type*} (s : SelState α) (es : List (SelEvent α)) : SelState α :=
  es.foldl selStep s

/-- A selection state reachable from a given start state. -/
def SelReachable {α : Type*} (s₀ s : SelState α) : Prop :=
  ∃ es, selRun s₀ es = s

/-!  ## Spec-side gadget: the sublist of elements at indices satisfying a
predicate.  `keepIdx p n xs` keeps the elements of `xs` whose absolute index
(starting at `n`) satisfies `p`. -/

def keepIdx {α : Type*} (p : ℕ → Bool) : ℕ → List α → List α
  | _, [] => []
  | n, a :: xs => if p n then a :: keepIdx p (n + 1) xs else keepIdx p (n + 1) xs

/-!  # Lemmas  -/

theorem keepIdx_append {α : Type*} (p : ℕ → Bool) (n : ℕ) (xs ys : List α) :
    keepIdx p n (xs ++ ys) = keepIdx p n xs ++ keepIdx p (n + xs.length) ys := by
  induction xs generalizing n with
  | nil => simp [keepIdx]
  | cons a xs ih =>
    have hidx : n + (xs.length + 1) = (n + 1) + xs.length := by omega
    simp only [List.cons_append, keepIdx, List.length_cons, hidx]
    rcases p n with _ | _ <;> simp [ih (n + 1)]

theorem keepIdx_congr {α : Type*} {p q : ℕ → Bool} {n : ℕ} {xs : List α}
    (h : ∀ k, n ≤ k → k < n + xs.length → p k = q k) :
    keepIdx p n xs = keepIdx q n xs := by
  induction xs generalizing n with
  | nil => rfl
  | cons a xs ih =>
    have hn : p n = q n := h n le_rfl (by simp)
    simp only [keepIdx, hn]
    have hrest : keepIdx p (n + 1) xs = keepIdx q (n + 1) xs := by
      refine ih fun k hk hk2 => h k (by omega) (by simp at hk2 ⊢; omega)
    rw [hrest]

theorem keepIdx_of_all_true {α : Type*} {p : ℕ → Bool} {n : ℕ} {xs : List α}
    (h : ∀ k, n ≤ k → k < n + xs.length → p k = true) :
    keepIdx p n xs = xs := by
  induction xs generalizing n with
  | nil => rfl
  | cons a xs ih =>
    have hn : p n = true := h n le_rfl (by simp)
    simp only [keepIdx, hn, if_true]
    rw [ih fun k hk hk2 => h k (by omega) (by simp at hk2 ⊢; omega)]

theorem keepIdx_of_all_false {α : Type*} {p : ℕ → Bool} {n : ℕ} {xs : List α}
    (h : ∀ k, n ≤ k → k < n + xs.length → p k = false) :
    keepIdx p n xs = [] := by
  induction xs generalizing n with
  | nil => rfl
  | cons a xs ih =>
    have hn : p n = false := h n le_rfl (by simp)
    simp only [keepIdx, hn, if_false, Bool.false_eq_true]
    exact ih fun k hk hk2 => h k (by omega) (by simp at hk2 ⊢; omega)

/-- The index-respecting filter of the source (`filter` over `enum`) is
`keepIdx`. -/
theorem enumFrom_filter_map_eq_keepIdx {α : Type*} (p : ℕ → Bool) (n : ℕ) (xs : List α) :
    ((xs.enumFrom n).filter fun q => p q.1).map Prod.snd = keepIdx p n xs := by
  induction xs generalizing n with
  | nil => rfl
  | cons a xs ih =>
    simp only [List.enumFrom, keepIdx, List.filter]
    rcases h : p n with _ | _ <;> simp [h, ih]

theorem enum_filter_map_eq_keepIdx {α : Type*} (p : ℕ → Bool) (xs : List α) :
    (xs.enum.filter fun q => p q.1).map Prod.snd = keepIdx p 0 xs := by
  rw [List.enum, enumFrom_filter_map_eq_keepIdx]
theorem pairwise_lt_of_sorted_nodup {l : List ℕ}
    (hs : l.Sorted (· ≤ ·)) (hn : l.Nodup) : l.Pairwise (· < ·) :=
  (hs.and hn).imp fun h => lt_of_le_of_ne h.1 h.2

/-- Mapping a sorted list of distinct in-bounds indices through `get?` picks
out the elements at those indices, in index order. -/
theorem filterMap_getFrom_eq_keepIdx {α : Type*} (xs : List α) :
    ∀ (n : ℕ) (l : List ℕ), l.Pairwise (· < ·) →
    (∀ i ∈ l, n ≤ i ∧ i < n + xs.length) →
    (l.filterMap fun i => xs.get? (i - n)) = keepIdx (fun i => l.contains i) n xs := by
  induction xs with
  | nil =>
    intro n l _ hb
    have : l = [] := List.eq_nil_iff_forall_not_mem.mpr fun i hi => by
      have h2 := hb i hi; simp at h2; omega
    simp [this, keepIdx]
  | cons a xs ih =>
    intro n l hp hb
    by_cases hn : n ∈ l
    · match l, hn with
      | j :: t, hn =>
        have hj : j = n := by
          have hjn : n ≤ j := (hb j (by simp)).1
          rcases List.mem_cons.mp hn with h | h
          · omega
          · have := (List.pairwise_cons.mp hp).1 n h; omega
        subst hj
        have hpt : t.Pairwise (· < ·) := (List.pairwise_cons.mp hp).2
        have hgt : ∀ i ∈ t, j < i := (List.pairwise_cons.mp hp).1
        have hbt : ∀ i ∈ t, j + 1 ≤ i ∧ i < (j + 1) + xs.length := by
          intro i hi
          have h1 := hgt i hi
          have h2 := (hb i (by simp [hi])).2
          simp only [List.length_cons] at h2
          omega
        have hcongr : (t.filterMap fun i => (a :: xs).get? (i - j)) =
            t.filterMap fun i => xs.get? (i - (j + 1)) := by
          refine List.filterMap_congr fun i hi => ?_
          have h1 := hgt i hi
          have : i - j = (i - (j + 1)) + 1 := by omega
          rw [this, List.get?_cons_succ]
        simp only [List.filterMap_cons, Nat.sub_self, List.get?_cons_zero, hcongr,
          ih (j + 1) t hpt hbt]
        have hhead : ((j :: t).contains j) = true := by simp
        show _ = keepIdx (fun i => (j :: t).contains i) j (a :: xs)
        simp only [keepIdx, hhead, if_true]
        congr 1
        refine keepIdx_congr fun k hk _ => ?_
        have hkj : k ≠ j := by omega
        simp [List.contains_cons, hkj]
    · have hge : ∀ i ∈ l, n + 1 ≤ i ∧ i < (n + 1) + xs.length := by
        intro i hi
        have h1 := hb i hi
        have : i ≠ n := fun h => hn (h ▸ hi)
        simp only [List.length_cons] at h1
        omega
      have hcongr : (l.filterMap fun i => (a :: xs).get? (i - n)) =
          l.filterMap fun i => xs.get? (i - (n + 1)) := by
        refine List.filterMap_congr fun i hi => ?_
        have h1 := (hge i hi).1
        have : i - n = (i - (n + 1)) + 1 := by omega
        rw [this, List.get?_cons_succ]
      have hcn : (l.contains n) = false := by simp [hn]
      rw [hcongr, ih (n + 1) l hp hge]
      show _ = keepIdx (fun i => l.contains i) n (a :: xs)
      simp only [keepIdx, hcn, Bool.false_eq_true, if_false]

theorem filterMap_get_eq_keepIdx {α : Type*} (xs : List α) (l : List ℕ)
    (hp : l.Pairwise (· < ·)) (hb : ∀ i ∈ l, i < xs.length) :
    (l.filterMap fun i => xs.get? i) = keepIdx (fun i => l.contains i) 0 xs := by
  have := filterMap_getFrom_eq_keepIdx xs 0 l hp (fun i hi => ⟨Nat.zero_le i, by
    simpa using hb i hi⟩)
  simpa using this
theorem insertionSort_pairwise_lt {M : List ℕ} (hM : M.Nodup) :
    (M.insertionSort (· ≤ ·)).Pairwise (· < ·) :=
  pairwise_lt_of_sorted_nodup (List.sorted_insertionSort _ M)
    ((List.perm_insertionSort _ M).nodup_iff.mpr hM)

theorem insertionSort_mem_iff {M : List ℕ} {i : ℕ} :
    i ∈ M.insertionSort (· ≤ ·) ↔ i ∈ M := (List.perm_insertionSort _ M).mem_iff

theorem insertionSort_contains_eq {M : List ℕ} (k : ℕ) :
    (M.insertionSort (· ≤ ·)).contains k = M.contains k := by
  by_cases h : k ∈ M <;> simp [h, insertionSort_mem_iff]

/-- Lemma: `reorderCore` computes exactly the split-and-splice the spec describes:
`stay` keeps the non-moved items in order, `move` keeps the moved items in
ascending index order, and the block is inserted at
`T - |{m ∈ M : m < T}|` clamped to `[0, |stay|]`. -/
theorem reorderCore_eq_spec {α : Type*} (items : List α) (M : List ℕ) (T : ℕ)
    (hnd : M.Nodup) (hv : ∀ i ∈ M, i < items.length) :
    reorderCore items M T =
      ((keepIdx (fun i => !(M.contains i)) 0 items).take
          (min (T - (M.filter fun i => decide (i < T)).length)
            (keepIdx (fun i => !(M.contains i)) 0 items).length) ++
        keepIdx (fun i => M.contains i) 0 items ++
        (keepIdx (fun i => !(M.contains i)) 0 items).drop
          (min (T - (M.filter fun i => decide (i < T)).length)
            (keepIdx (fun i => !(M.contains i)) 0 items).length),
       min (T - (M.filter fun i => decide (i < T)).length)
         (keepIdx (fun i => !(M.contains i)) 0 items).length,
       (keepIdx (fun i => M.contains i) 0 items).length) := by
  have hstay : ((items.enum.filter fun p => !(M.contains p.1)).map Prod.snd) =
      keepIdx (fun i => !(M.contains i)) 0 items :=
    enum_filter_map_eq_keepIdx (fun i => !(M.contains i)) items
  have hmove : ((M.insertionSort (· ≤ ·)).filterMap fun i => items.get? i) =
      keepIdx (fun i => M.contains i) 0 items := by
    rw [filterMap_get_eq_keepIdx items _ (insertionSort_pairwise_lt hnd)
      (fun i hi => hv i (insertionSort_mem_iff.mp hi))]
    exact keepIdx_congr fun k _ _ => insertionSort_contains_eq k
  have hcount : ((M.insertionSort (· ≤ ·)).filter fun i => decide (i < T)).length =
      (M.filter fun i => decide (i < T)).length :=
    ((List.perm_insertionSort _ M).filter _).length_eq
  simp only [reorderCore, hstay, hmove, hcount]
theorem take_get_drop_eq {α : Type*} (xs : List α) (i : ℕ) (h : i < xs.length) :
    xs.take i ++ xs.get ⟨i, h⟩ :: xs.drop (i + 1) = xs := by
  conv_rhs => rw [← List.take_append_drop i xs, List.drop_eq_get_cons h]

theorem keepIdx_single_out {α : Type*} (xs : List α) (i : ℕ) (h : i < xs.length) :
    keepIdx (fun k => !([i].contains k)) 0 xs = xs.take i ++ xs.drop (i + 1) := by
  conv_lhs => rw [← take_get_drop_eq xs i h]
  rw [keepIdx_append]
  have hlen : (xs.take i).length = i := by rw [List.length_take]; omega
  rw [hlen]
  have h1 : keepIdx (fun k => !([i].contains k)) 0 (xs.take i) = xs.take i := by
    refine keepIdx_of_all_true fun k hk hk2 => ?_
    rw [hlen] at hk2
    have : k ≠ i := by omega
    simp [this]
  have h2 : keepIdx (fun k => !([i].contains k)) (i + 1) (xs.drop (i + 1)) =
      xs.drop (i + 1) := by
    refine keepIdx_of_all_true fun k hk hk2 => ?_
    have : k ≠ i := by omega
    simp [this]
  simp only [Nat.zero_add]
  have hmid : keepIdx (fun k => !([i].contains k)) i (xs.get ⟨i, h⟩ :: xs.drop (i + 1)) =
      keepIdx (fun k => !([i].contains k)) (i + 1) (xs.drop (i + 1)) := by
    simp [keepIdx]
  rw [hmid, h1, h2]

theorem keepIdx_single_in {α : Type*} (xs : List α) (i : ℕ) (h : i < xs.length) :
    keepIdx (fun k => [i].contains k) 0 xs = [xs.get ⟨i, h⟩] := by
  conv_lhs => rw [← take_get_drop_eq xs i h]
  rw [keepIdx_append]
  have hlen : (xs.take i).length = i := by rw [List.length_take]; omega
  rw [hlen]
  have h1 : keepIdx (fun k => [i].contains k) 0 (xs.take i) = [] := by
    refine keepIdx_of_all_false fun k hk hk2 => ?_
    rw [hlen] at hk2
    have : k ≠ i := by omega
    simp [this]
  have h2 : keepIdx (fun k => [i].contains k) (i + 1) (xs.drop (i + 1)) = [] := by
    refine keepIdx_of_all_false fun k hk hk2 => ?_
    have : k ≠ i := by omega
    simp [this]
  simp only [Nat.zero_add]
  have hmid : keepIdx (fun k => [i].contains k) i (xs.get ⟨i, h⟩ :: xs.drop (i + 1)) =
      xs.get ⟨i, h⟩ :: keepIdx (fun k => [i].contains k) (i + 1) (xs.drop (i + 1)) := by
    simp [keepIdx]
  rw [hmid, h1, h2]
  simp

/-- Erasing a strictly descending list of in-bounds indices one by one
(`splice` working from the end) removes exactly the elements at those
indices. -/
theorem spliceOut_sorted_desc {α : Type*} :
    ∀ (l : List ℕ) (a : List α), l.Pairwise (· > ·) → (∀ i ∈ l, i < a.length) →
    spliceOut a l = keepIdx (fun i => !(l.contains i)) 0 a := by
  intro l
  induction l with
  | nil =>
    intro a _ _
    exact (keepIdx_of_all_true fun k _ _ => rfl).symm
  | cons i rest ih =>
    intro a hp hb
    have hi : i < a.length := hb i (by simp)
    have hrest : ∀ j ∈ rest, j < i := fun j hj => (List.pairwise_cons.mp hp).1 j hj
    have hstep : spliceOut a (i :: rest) = spliceOut (a.eraseIdx i) rest := by
      simp only [spliceOut, List.foldl_cons, if_pos hi]
    have hblen : ∀ j ∈ rest, j < (a.eraseIdx i).length := by
      intro j hj
      rw [List.length_eraseIdx, if_pos hi]
      have := hrest j hj
      omega
    rw [hstep, ih (a.eraseIdx i) (List.pairwise_cons.mp hp).2 hblen,
      List.eraseIdx_eq_take_drop_succ, keepIdx_append]
    have hlen : (a.take i).length = i := by rw [List.length_take]; omega
    rw [hlen]
    simp only [Nat.zero_add]
    conv_rhs => rw [← take_get_drop_eq a i hi, keepIdx_append, hlen]
    simp only [Nat.zero_add]
    have e1 : keepIdx (fun k => !(rest.contains k)) 0 (a.take i) =
        keepIdx (fun k => !((i :: rest).contains k)) 0 (a.take i) := by
      refine keepIdx_congr fun k hk hk2 => ?_
      rw [hlen] at hk2
      have : k ≠ i := by omega
      simp [this]
    have e2 : keepIdx (fun k => !(rest.contains k)) i (a.drop (i + 1)) =
        a.drop (i + 1) := by
      refine keepIdx_of_all_true fun k hk hk2 => ?_
      have : k ∉ rest := fun hmem => by have := hrest k hmem; omega
      simp [this]
    have e3 : keepIdx (fun k => !((i :: rest).contains k)) (i + 1) (a.drop (i + 1)) =
        a.drop (i + 1) := by
      refine keepIdx_of_all_true fun k hk hk2 => ?_
      have hki : k ≠ i := by omega
      have hkr : k ∉ rest := fun hmem => by have := hrest k hmem; omega
      simp [hki, hkr]
    have e4 : keepIdx (fun k => !((i :: rest).contains k)) i
        (a.get ⟨i, hi⟩ :: a.drop (i + 1)) =
        keepIdx (fun k => !((i :: rest).contains k)) (i + 1) (a.drop (i + 1)) := by
      simp [keepIdx]
    rw [e1, e2, e4, e3]

theorem insertionSort_pairwise_gt {M : List ℕ} (hM : M.Nodup) :
    (M.insertionSort (· ≥ ·)).Pairwise (· > ·) := by
  have hs : (M.insertionSort (· ≥ ·)).Sorted (· ≥ ·) := List.sorted_insertionSort _ M
  have hn : (M.insertionSort (· ≥ ·)).Nodup :=
    (List.perm_insertionSort _ M).nodup_iff.mpr hM
  exact (hs.and hn).imp fun h => lt_of_le_of_ne h.1 (Ne.symm h.2)

theorem insertionSortGe_mem_iff {M : List ℕ} {i : ℕ} :
    i ∈ M.insertionSort (· ≥ ·) ↔ i ∈ M := (List.perm_insertionSort _ M).mem_iff

theorem insertionSortGe_contains_eq {M : List ℕ} (k : ℕ) :
    (M.insertionSort (· ≥ ·)).contains k = M.contains k := by
  by_cases h : k ∈ M <;> simp [h, insertionSortGe_mem_iff]
theorem set_get_self {α : Type*} : ∀ (a : List α) (i : ℕ) (x : α),
    a.get? i = some x → a.set i x = a
  | [], _, _, h => by cases h
  | b :: a, 0, x, h => by
    simp only [List.get?_cons_zero, Option.some.injEq] at h
    simp [List.set, h]
  | b :: a, i + 1, x, h => by
    simp only [List.get?_cons_succ] at h
    simp [List.set, set_get_self a i x h]

theorem objSet_lookup_self : ∀ (o : List (String × Json)) (k : String) (v : Json),
    o.lookup k = some v → objSet o k v = o
  | [], _, _, h => by cases h
  | (a, b) :: o, k, v, h => by
    by_cases hk : a = k
    · have hbeq : (k == a) = true := beq_iff_eq.mpr hk.symm
      simp only [List.lookup, hbeq, Option.some.injEq] at h
      simp [objSet, hk, h]
    · have hbeq : (k == a) = false := beq_eq_false_iff_ne.mpr fun he => hk he.symm
      simp only [List.lookup, hbeq] at h
      simp [objSet, hk, objSet_lookup_self o k v h]

theorem objSet_lookup_eq : ∀ (o : List (String × Json)) (k : String) (v : Json),
    (objSet o k v).lookup k = some v
  | [], k, v => by simp [objSet, List.lookup]
  | (a, b) :: o, k, v => by
    by_cases hk : a = k
    · simp [objSet, hk, List.lookup]
    · have hbeq : (k == a) = false := beq_eq_false_iff_ne.mpr fun he => hk he.symm
      simp [objSet, hk, List.lookup, hbeq, objSet_lookup_eq o k v]

theorem objSet_lookup_ne : ∀ (o : List (String × Json)) (k k' : String) (v : Json),
    k' ≠ k → (objSet o k v).lookup k' = o.lookup k'
  | [], k, k', v, h => by
    have hbeq : (k' == k) = false := beq_eq_false_iff_ne.mpr h
    simp [objSet, List.lookup, hbeq]
  | (a, b) :: o, k, k', v, h => by
    by_cases hk : a = k
    · have hbeq : (k' == k) = false := beq_eq_false_iff_ne.mpr h
      have hbeq2 : (k' == a) = false := by rw [hk]; exact hbeq
      simp [objSet, hk, List.lookup, hbeq, hbeq2]
    · by_cases hk' : a = k'
      · have hbeq : (k' == a) = true := beq_iff_eq.mpr hk'.symm
        simp [objSet, hk, List.lookup, hbeq]
      · have hbeq : (k' == a) = false := beq_eq_false_iff_ne.mpr fun he => hk' he.symm
        simp [objSet, hk, List.lookup, hbeq, objSet_lookup_ne o k k' v h]

theorem childAt_isJsObject {d : Json} {k : Key} {c : Json} (h : childAt d k = some c) :
    d.isJsObject = true := by
  cases d <;> cases k <;> simp_all [childAt, Json.isJsObject]

theorem setChild_isJsObject (d : Json) (k : Key) (c : Json) :
    (setChild d k c).isJsObject = d.isJsObject := by
  cases d <;> cases k <;> simp [setChild, Json.isJsObject]

theorem childAt_setChild_same {d : Json} {k : Key} {c0 : Json} (c : Json)
    (h : childAt d k = some c0) : childAt (setChild d k c) k = some c := by
  cases d with
  | arr a =>
    cases k with
    | idx i =>
      simp only [childAt] at h
      simp only [setChild, childAt, List.get?_set, if_pos rfl, h, Option.map_eq_map,
        Option.map_some]
      rfl
    | str s => simp [childAt] at h
  | obj o =>
    cases k with
    | idx i => simp [childAt] at h
    | str s => simp [setChild, childAt, objSet_lookup_eq]
  | null => simp [childAt] at h
  | bool b => simp [childAt] at h
  | num n => simp [childAt] at h
  | str s => simp [childAt] at h

theorem childAt_setChild_other (d : Json) (k j : Key) (c : Json) (hj : j ≠ k) :
    childAt (setChild d k c) j = childAt d j := by
  cases d with
  | arr a =>
    cases k with
    | idx i =>
      cases j with
      | idx i' =>
        have : i ≠ i' := fun h => hj (by rw [h])
        simp [setChild, childAt, List.get?_set, this]
      | str s => simp [setChild, childAt]
    | str s => simp [setChild]
  | obj o =>
    cases k with
    | idx i => simp [setChild]
    | str s =>
      cases j with
      | idx i' => simp [setChild, childAt]
      | str s' =>
        have : s' ≠ s := fun h => hj (by rw [h])
        simp [setChild, childAt, objSet_lookup_ne o s s' c this]
  | null => simp [setChild]
  | bool b => simp [setChild]
  | num n => simp [setChild]
  | str s => simp [setChild]

/-- Writing back the value read at a legal path reproduces the document. -/
theorem setDeep_getPath_self : ∀ (P : List Key) (d g : Json),
    getPath d P = some g → setDeep d P g = d
  | [], d, g, h => by
    simp only [getPath, Option.some.injEq] at h
    simp [setDeep, h]
  | k :: rest, d, g, h => by
    simp only [getPath] at h
    rcases hobj : d.isJsObject with _ | _
    · rw [hobj] at h; simp at h
    · rw [hobj] at h
      simp only [if_true] at h
      rcases hc : childAt d k with _ | c
      · rw [hc] at h; simp at h
      · rw [hc] at h
        simp only [setDeep, hc]
        rw [setDeep_getPath_self rest c g h]
        cases d with
        | arr a =>
          cases k with
          | idx i =>
            simp only [childAt] at hc
            simp [setChild, set_get_self a i c hc]
          | str s => simp [childAt] at hc
        | obj o =>
          cases k with
          | idx i => simp [childAt] at hc
          | str s =>
            simp only [childAt] at hc
            simp [setChild, objSet_lookup_self o s c hc]
        | null => simp [childAt] at hc
        | bool b => simp [childAt] at hc
        | num n => simp [childAt] at hc
        | str s => simp [childAt] at hc
theorem getPath_isSome_of_legal : ∀ (P : List Key) (d : Json),
    legalPath d P = true → ∃ g, getPath d P = some g
  | [], d, _ => ⟨d, rfl⟩
  | k :: rest, d, h => by
    rcases hc : childAt d k with _ | c
    · simp only [legalPath, hc] at h
      exact Bool.noConfusion h
    · simp only [legalPath, hc] at h
      obtain ⟨g, hg⟩ := getPath_isSome_of_legal rest c h
      exact ⟨g, by simp [getPath, childAt_isJsObject hc, hc, hg]⟩

/-- Structural sharing: a `set` along a path leaves every sibling subtree off
the path untouched. -/
theorem getPath_setDeep_offpath : ∀ (pre : List Key) (d : Json) (pk : Key)
    (suf : List Key) (v : Json) (j : Key),
    legalPath d (pre ++ pk :: suf) = true → j ≠ pk →
    getPath (setDeep d (pre ++ pk :: suf) v) (pre ++ [j]) = getPath d (pre ++ [j])
  | [], d, pk, suf, v, j, h, hj => by
    rcases hc : childAt d pk with _ | c
    · simp only [List.nil_append, legalPath, hc] at h
      exact Bool.noConfusion h
    · have hobj : d.isJsObject = true := childAt_isJsObject hc
      simp only [List.nil_append, setDeep, hc, getPath, setChild_isJsObject, hobj,
        if_true, childAt_setChild_other d pk j _ hj]
  | q :: pre, d, pk, suf, v, j, h, hj => by
    rcases hc : childAt d q with _ | c
    · simp only [List.cons_append, legalPath, hc] at h
      exact Bool.noConfusion h
    · have hrest : legalPath c (pre ++ pk :: suf) = true := by
        simp only [List.cons_append, legalPath, hc] at h
        exact h
      have hobj : d.isJsObject = true := childAt_isJsObject hc
      simp only [List.cons_append, setDeep, hc, getPath, setChild_isJsObject, hobj,
        if_true, childAt_setChild_same _ hc]
      exact getPath_setDeep_offpath pre c pk suf v j hrest hj
theorem histSum_le {α : Type*} {h : HistoryState α} (hr : HistReachable h) :
    h.past.length + h.future.length ≤ MAX_HISTORY := by
  induction hr with
  | init => simp [MAX_HISTORY]
  | load h d _ _ => simp [MAX_HISTORY]
  | reset h _ _ => simp [MAX_HISTORY]
  | push h d _ ih =>
    rcases hp : h.present with _ | p
    · simpa [handleDataUpdate, hp] using ih
    · simp only [handleDataUpdate, hp]
      split
      next hc =>
        simp only [List.length_tail, List.length_append, List.length_singleton,
          List.length_nil]
        omega
      next hc =>
        simp only [List.length_append, List.length_singleton, List.length_nil] at hc ⊢
        omega
  | undo h _ ih =>
    rcases hl : h.past.getLast? with _ | prev
    · simpa [undo, hl] using ih
    · have hne : h.past ≠ [] := by
        intro he; rw [he] at hl; cases hl
      have hpos : 0 < h.past.length := List.length_pos.mpr hne
      simp only [undo, hl, List.length_dropLast, List.length_append]
      rcases h.present with _ | x <;> simp only [Option.toList] <;>
        simp_all <;> omega
  | redo h _ ih =>
    rcases hf : h.future with _ | ⟨x, rest⟩
    · simpa [redo, hf] using ih
    · rw [hf] at ih
      simp only [redo, hf, List.length_append, List.length_cons] at ih ⊢
      rcases h.present with _ | y <;> simp only [Option.toList] <;> simp_all <;> omega

theorem getLast?_pushPast {α : Type*} (l : List α) (p : α)
    (hlen : MAX_HISTORY < (l ++ [p]).length → l ≠ []) :
    (if MAX_HISTORY < (l ++ [p]).length then (l ++ [p]).tail else l ++ [p]).getLast?
      = some p := by
  by_cases hc : MAX_HISTORY < (l ++ [p]).length
  · rw [if_pos hc]
    match l, hlen hc with
    | x :: xs, _ => simp [List.getLast?_concat]
  · rw [if_neg hc]
    exact List.getLast?_concat l
theorem foldl_filter_keys (o : List (String × Json)) :
    ∀ (names : List String),
    names.foldl (fun acc k => acc.filter fun p => !(decide (p.1 = k))) o
      = o.filter fun p => !(names.contains p.1) := by
  intro names
  induction names generalizing o with
  | nil => simp
  | cons k ks ih =>
    simp only [List.foldl_cons, ih, List.filter_filter]
    refine List.filter_congr fun p _ => ?_
    by_cases h1 : p.1 = k <;> by_cases h2 : p.1 ∈ ks <;> simp [h1, h2]

theorem get_bind_eq_filterMap_get {α β : Type*} :
    ∀ (xs : List α) (f : α → Option β), (∀ x ∈ xs, (f x).isSome) →
    ∀ (i : ℕ), (xs.get? i).bind f = (xs.filterMap f).get? i
  | [], _, _, i => by simp
  | x :: xs, f, hall, i => by
    rcases hfx : f x with _ | y
    · have := hall x (by simp)
      rw [hfx] at this
      cases this
    · rw [List.filterMap_cons_some hfx]
      cases i with
      | zero => simp [hfx]
      | succ n =>
        simp only [List.get?_cons_succ]
        exact get_bind_eq_filterMap_get xs f (fun z hz => hall z (by simp [hz])) n

theorem filterMap_length_all_some {α β : Type*} :
    ∀ (xs : List α) (f : α → Option β), (∀ x ∈ xs, (f x).isSome) →
    (xs.filterMap f).length = xs.length
  | [], _, _ => rfl
  | x :: xs, f, hall => by
    rcases hfx : f x with _ | y
    · have := hall x (by simp)
      rw [hfx] at this
      cases this
    · rw [List.filterMap_cons_some hfx]
      simp only [List.length_cons,
        filterMap_length_all_some xs f fun z hz => hall z (by simp [hz])]

theorem filterMap_get_nodup {β : Type*} :
    ∀ (S : List ℕ) (ys : List β), S.Nodup → (∀ i ∈ S, i < ys.length) → ys.Nodup →
    (S.filterMap fun i => ys.get? i).Nodup
  | [], _, _, _, _ => List.nodup_nil
  | i :: S, ys, hnd, hb, hys => by
    have hi : i < ys.length := hb i (by simp)
    obtain ⟨y, hy⟩ : ∃ y, ys.get? i = some y := ⟨_, List.get?_eq_get hi⟩
    rw [List.filterMap_cons_some hy]
    refine List.nodup_cons.mpr ⟨?_, ?_⟩
    · intro hmem
      obtain ⟨i', hi', hy'⟩ := List.mem_filterMap.mp hmem
      have : i = i' := List.get?_inj hi hys (hy.trans hy'.symm)
      exact (List.nodup_cons.mp hnd).1 (this ▸ hi')
    · exact filterMap_get_nodup S ys (List.nodup_cons.mp hnd).2
        (fun j hj => hb j (by simp [hj])) hys
theorem handleDelete_noop (cd : List Item) (cld : Json) :
    handleDelete cd cld [] none none = (cld, [], none) := rfl

/-- The array branch of `handleDelete`, for any view `currentData` whose
items carry distinct in-bounds index names (e.g. a filtered view of the
array `a`): the true indices named by the chosen view positions are removed
from `a`, the selection is cleared, and focus moves to the smallest chosen
view index. -/
theorem handleDelete_array_spec (a : List Json) (currentData : List Item) (S : List ℕ)
    (focus : Option ℕ) (hS : S ≠ []) (hSnd : S.Nodup)
    (hSb : ∀ i ∈ S, i < currentData.length)
    (hnames : ∀ it ∈ currentData, ∃ j, it.name = Key.idx j ∧ j < a.length)
    (hnnd : (currentData.map Item.name).Nodup) :
    handleDelete currentData (Json.arr a) S focus none =
      (Json.arr (keepIdx (fun j =>
          !((S.filterMap fun i => (currentData.get? i).bind fun it => it.name.idxNat).contains j))
        0 a),
       [], some (minList S)) := by
  have hSe : S.isEmpty = false := by
    cases S with
    | nil => exact absurd rfl hS
    | cons x xs => rfl
  have hvalid : (S.filter fun i => decide (i < currentData.length)) = S :=
    List.filter_eq_self.mpr fun i hi => decide_eq_true (hSb i hi)
  set D : List ℕ :=
    S.filterMap fun i => (currentData.get? i).bind fun it => it.name.idxNat with hD
  have hall : ∀ it ∈ currentData, (Key.idxNat (Item.name it)).isSome = true := by
    intro it hit
    obtain ⟨j, hj, _⟩ := hnames it hit
    simp [hj, Key.idxNat]
  set trueIdx : List ℕ := currentData.filterMap fun it => it.name.idxNat with hT
  have hTlen : trueIdx.length = currentData.length :=
    filterMap_length_all_some currentData _ hall
  have hDT : D = S.filterMap fun i => trueIdx.get? i := by
    rw [hD, hT]
    exact List.filterMap_congr fun i _ =>
      get_bind_eq_filterMap_get currentData _ hall i
  have hTnd : trueIdx.Nodup := by
    have hcomp : trueIdx = (currentData.map Item.name).filterMap Key.idxNat := by
      rw [hT, List.filterMap_map]
      rfl
    rw [hcomp]
    refine List.Nodup.filterMap ?_ hnnd
    intro x y b hb1 hb2
    cases x <;> cases y <;> simp_all [Key.idxNat]
  have hDnd : D.Nodup := by
    rw [hDT]
    exact filterMap_get_nodup S trueIdx hSnd (fun i hi => hTlen ▸ hSb i hi) hTnd
  have hDb : ∀ j ∈ D, j < a.length := by
    intro j hj
    rw [hDT] at hj
    obtain ⟨i, _, hget⟩ := List.mem_filterMap.mp hj
    have hjT : j ∈ trueIdx := List.get?_mem hget
    rw [hT] at hjT
    obtain ⟨it, hit, hname⟩ := List.mem_filterMap.mp hjT
    obtain ⟨j', hj', hjb⟩ := hnames it hit
    rw [hj'] at hname
    simp only [Key.idxNat, Option.some.injEq] at hname
    omega
  have hsplice : spliceOut a (D.insertionSort (· ≥ ·)) =
      keepIdx (fun j => !(D.contains j)) 0 a := by
    rw [spliceOut_sorted_desc _ a (insertionSort_pairwise_gt hDnd)
      (fun j hj => hDb j (insertionSortGe_mem_iff.mp hj))]
    exact keepIdx_congr fun k _ _ => by rw [insertionSortGe_contains_eq]
  have hDunfold : (S.filterMap fun i => currentData.get? i).filterMap
      (fun it => it.name.idxNat) = D := by
    rw [List.filterMap_filterMap]
  simp only [handleDelete, hSe, Bool.not_false, if_true, hvalid, hDunfold, hsplice]
  simp

/-- The object branch of `handleDelete`: the chosen entries are removed by
key, the selection is cleared, and focus moves to the smallest chosen view
index. -/
theorem handleDelete_object_spec (o : List (String × Json)) (currentData : List Item)
    (S : List ℕ) (focus : Option ℕ) (hS : S ≠ [])
    (hSb : ∀ i ∈ S, i < currentData.length) :
    handleDelete currentData (Json.obj o) S focus none =
      (Json.obj (o.filter fun p =>
          !(((S.filterMap fun i => currentData.get? i).map fun it =>
              it.name.asString).contains p.1)),
       [], some (minList S)) := by
  have hSe : S.isEmpty = false := by
    cases S with
    | nil => exact absurd rfl hS
    | cons x xs => rfl
  have hvalid : (S.filter fun i => decide (i < currentData.length)) = S :=
    List.filter_eq_self.mpr fun i hi => decide_eq_true (hSb i hi)
  have hfold : ((S.filterMap fun i => currentData.get? i).foldl
      (fun acc it => acc.filter fun p => !(decide (p.1 = it.name.asString))) o) =
      o.filter fun p =>
        !(((S.filterMap fun i => currentData.get? i).map fun it =>
            it.name.asString).contains p.1) := by
    rw [← foldl_filter_keys o]
    exact (List.foldl_map (fun it : Item => it.name.asString)
      (fun acc k => List.filter (fun p => !(decide (p.1 = k))) acc)
      (S.filterMap fun i => currentData.get? i) o).symm
  simp only [handleDelete, hSe, Bool.not_false, if_true, hvalid, hfold]
  simp
theorem itemize_arr_length (a : List Json) : (itemize (Json.arr a)).length = a.length := by
  simp [itemize]

theorem itemize_arr_get (a : List Json) (i : ℕ) :
    (itemize (Json.arr a)).get? i = (a.get? i).map fun v => ⟨Key.idx i, v⟩ := by
  simp only [itemize, List.get?_map, List.enum_get?]
  cases a.get? i <;> rfl

theorem itemize_arr_names (a : List Json) :
    (itemize (Json.arr a)).map Item.name = (List.range a.length).map Key.idx := by
  simp only [itemize, List.map_map]
  rw [← List.enum_map_fst a, List.map_map]
  rfl

theorem itemize_arr_names_nodup (a : List Json) :
    ((itemize (Json.arr a)).map Item.name).Nodup := by
  rw [itemize_arr_names]
  exact (List.nodup_range _).map fun x y h => Key.idx.inj h

theorem itemize_arr_names_spec (a : List Json) :
    ∀ it ∈ itemize (Json.arr a), ∃ j, it.name = Key.idx j ∧ j < a.length := by
  intro it hit
  simp only [itemize, List.mem_map] at hit
  obtain ⟨p, hp, hpe⟩ := hit
  refine ⟨p.1, by rw [← hpe], ?_⟩
  have : p.1 ∈ a.enum.map Prod.fst := List.mem_map_of_mem Prod.fst hp
  rw [List.enum_map_fst] at this
  exact List.mem_range.mp this

theorem unfiltered_trueIdx (a : List Json) (S : List ℕ) (hb : ∀ i ∈ S, i < a.length) :
    (S.filterMap fun i =>
      ((itemize (Json.arr a)).get? i).bind fun it => it.name.idxNat) = S := by
  have hpt : ∀ i ∈ S,
      (((itemize (Json.arr a)).get? i).bind fun it => it.name.idxNat) = some i := by
    intro i hi
    obtain ⟨v, hv⟩ : ∃ v, a.get? i = some v := ⟨_, List.get?_eq_get (hb i hi)⟩
    rw [itemize_arr_get, hv]
    rfl
  rw [List.filterMap_congr hpt, List.filterMap_some]

theorem clampSel_focus_lt {len : ℕ} {sel : List ℕ} {focus : Option ℕ} {f : ℕ}
    (h : (clampSel len sel focus).2 = some f) : f < len := by
  rcases focus with _ | g
  · simp [clampSel] at h
  · by_cases h0 : len = 0
    · simp [clampSel, h0] at h
    · by_cases h1 : len ≤ g
      · simp only [clampSel, h0, if_false, h1, if_true] at h
        simp only [Option.some.injEq] at h
        omega
      · simp only [clampSel, h0, if_false, h1, if_false] at h
        simp only [Option.some.injEq] at h
        omega

theorem clampSel_empty_focus (n m : ℕ) :
    clampSel n [] (some m) = ([], if n = 0 then none else some (min m (n - 1))) := by
  by_cases h0 : n = 0
  · simp [clampSel, h0]
  · by_cases h1 : n ≤ m
    · simp only [clampSel, h0, if_false, h1, if_true, List.filter_nil]
      have : min m (n - 1) = n - 1 := by omega
      simp [this]
    · simp only [clampSel, h0, if_false, h1, if_true]
      have : min m (n - 1) = m := by omega
      simp [this]

/-!  # Claims  -/

/-- C3, counterexample: the root-shape guard does **not** reject every root
that fails to be an ordered sequence of JSON objects.  Setting the root to
`[1]` — an array whose element is not an object — passes the guard
(`Array.isArray` only) and the update is propagated. -/
theorem c3_root_guard_counterexample :
    updateDataAtCurrentPath (Json.arr []) [] (Json.arr [Json.num 1])
        = some (Json.arr [Json.num 1]) ∧
    (Json.arr [Json.num 1]).isObjectArray = false :=
  ⟨rfl, rfl⟩

/-- C3 (amended): a `set` at the empty path is rejected (prior document
retained, error logged, nothing propagated to the history) exactly when the
resulting root is not an **array**; any array root — even one whose elements
are not objects — is accepted. -/
theorem c3_root_guard_amended (fileData newData : Json) :
    updateDataAtCurrentPath fileData [] newData =
      if newData.isArr then some newData else none := by
  cases h : newData.isArr <;>
    simp [updateDataAtCurrentPath, setDeep, h]

/-- C8: the drag-gesture commit (`onDragEnd`, reading the drag-context
snapshot and the captured drop target) computes exactly the same outcome —
document update, new selection, focus and anchor — as the direct
keyboard-move function `moveItemsDirect`, whenever the snapshot equals the
live item list and no filter is active. -/
theorem c8_drag_direct_equiv (allItems : List Item) (M : List ℕ) (T : ℕ)
    (sourceIdx : ℕ) (ui di : Option ℕ) (currentLevelData fileData : Json)
    (path : List Key) :
    (onDragEnd "" ⟨some ⟨sourceIdx, M, allItems⟩, some T, ui, di⟩
        currentLevelData fileData path).1
      = moveItemsDirect "" allItems currentLevelData fileData path M T := by
  rfl

/-- C9: a drag gesture that completes without a captured drop target is a
no-op: no document update is produced (nothing reaches the history) and the
drag context, advisory drop-target state and dragged-index state are all
reset to empty. -/
theorem c9_drag_cancel_noop (searchTerm : String) (refs : DragRefs)
    (currentLevelData fileData : Json) (path : List Key)
    (h : refs.dropTarget = none) :
    onDragEnd searchTerm refs currentLevelData fileData path
      = (none, ⟨none, none, none, none⟩) := by
  rcases refs with ⟨dd, dt, ui, di⟩
  simp only at h
  subst h
  cases dd <;> rfl

/-- C9 witness: a concrete abandoned drag. -/
theorem c9_drag_cancel_noop_witness :
    (DragRefs.mk (some ⟨0, [0], [⟨Key.idx 0, Json.num 5⟩]⟩) none (some 1) (some 0)).dropTarget
        = none ∧
    onDragEnd "" ⟨some ⟨0, [0], [⟨Key.idx 0, Json.num 5⟩]⟩, none, some 1, some 0⟩
        (Json.arr []) (Json.arr []) [] = (none, ⟨none, none, none, none⟩) :=
  ⟨rfl, c9_drag_cancel_noop "" _ (Json.arr []) (Json.arr []) [] rfl⟩

/-- C10, counterexample: the load filter does **not** drop every element
that is not a non-null JSON object: an array element (JS `typeof` is
`'object'`) is kept, so the loaded Document can contain non-object
entries. -/
theorem c10_load_filter_counterexample :
    processJsonData (Json.arr [Json.arr []]) = some [Json.arr []] ∧
    (Json.arr []).isObject = false :=
  ⟨rfl, rfl⟩

/-- C10 (amended): loading an array keeps, in order, exactly the elements
that are non-null in the JS `typeof === 'object'` sense — JSON objects
**and arrays** — silently dropping the rest, and is rejected with an error
exactly when no such element remains.  In particular loading
`[1, {"a": 1}, "x"]` yields the Document `[{"a": 1}]` with no error. -/
theorem c10_load_filter_amended :
    (∀ (items : List Json) (d : List Json),
        processJsonData (Json.arr items) = some d →
        d = items.filter Json.isJsObject ∧ d ≠ [] ∧
        ∀ v ∈ d, v.isJsObject = true) ∧
    (∀ items : List Json,
        processJsonData (Json.arr items) = none ↔
        ∀ v ∈ items, v.isJsObject = false) ∧
    processJsonData (Json.arr [Json.num 1, Json.obj [("a", Json.num 1)], Json.str "x"])
      = some [Json.obj [("a", Json.num 1)]] := by
  refine ⟨?_, ?_, rfl⟩
  · intro items d hd
    simp only [processJsonData] at hd
    by_cases he : (items.filter Json.isJsObject).isEmpty = true
    · rw [if_pos he] at hd
      cases hd
    · rw [if_neg he] at hd
      injection hd with hd
      subst hd
      refine ⟨rfl, ?_, fun v hv => List.of_mem_filter hv⟩
      intro hnil
      rw [hnil] at he
      exact he rfl
  · intro items
    constructor
    · intro hnone v hv
      by_cases he : (items.filter Json.isJsObject).isEmpty
      · rw [List.isEmpty_iff] at he
        by_contra hcon
        have : v ∈ items.filter Json.isJsObject :=
          List.mem_filter.mpr ⟨hv, by simpa using hcon⟩
        rw [he] at this
        cases this
      · simp only [processJsonData] at hnone
        rw [if_neg he] at hnone
        cases hnone
    · intro hall
      have he : (items.filter Json.isJsObject).isEmpty = true := by
        rw [List.isEmpty_iff, List.filter_eq_nil]
        intro v hv
        rw [hall v hv]
        simp
      simp only [processJsonData]
      rw [if_pos he]

/-- C10 witness: the amended load behaviour at the claim's own example. -/
theorem c10_load_filter_amended_witness :
    processJsonData (Json.arr [Json.num 1, Json.obj [("a", Json.num 1)], Json.str "x"])
        = some [Json.obj [("a", Json.num 1)]] ∧
    ([Json.obj [("a", Json.num 1)]]
        = [Json.num 1, Json.obj [("a", Json.num 1)], Json.str "x"].filter Json.isJsObject ∧
      [Json.obj [("a", Json.num 1)]] ≠ [] ∧
      ∀ v ∈ [Json.obj [("a", Json.num 1)]], v.isJsObject = true) :=
  ⟨rfl, c10_load_filter_amended.1 _ _ rfl⟩

/-- C2: from any history state whose present is `D`, `push(D')` followed by
`undo()` restores present = `D` exactly, and a subsequent `redo()` (with no
intervening push) restores present = `D'`; `undo()` on an empty past and
`redo()` on an empty future return the state unchanged.  (Snapshots are
immutable values; "reference-equal" is rendered as equality of the stored
snapshot.) -/
theorem c2_undo_redo :
    (∀ (α : Type) (h : HistoryState α) (d' p : α), h.present = some p →
        (undo (handleDataUpdate h d')).present = some p ∧
        (redo (undo (handleDataUpdate h d'))).present = some d') ∧
    (∀ (α : Type) (h : HistoryState α), h.past = [] → undo h = h) ∧
    (∀ (α : Type) (h : HistoryState α), h.future = [] → redo h = h) := by
  refine ⟨?_, ?_, ?_⟩
  · intro α h d' p hp
    have hne : MAX_HISTORY < (h.past ++ [p]).length → h.past ≠ [] := by
      intro hlt he
      rw [he] at hlt
      simp [MAX_HISTORY] at hlt
    have hlast := getLast?_pushPast h.past p hne
    constructor
    · simp only [handleDataUpdate, hp, undo, hlast]
    · simp only [handleDataUpdate, hp, undo, hlast, redo, Option.toList,
        List.append_nil]
  · intro α h hp
    simp only [undo, hp, List.getLast?_nil]
  · intro α h hf
    simp only [redo, hf]

/-- C2 witness: push, undo, redo on a concrete history. -/
theorem c2_undo_redo_witness :
    (HistoryState.mk ([] : List ℕ) (some 0) []).present = some 0 ∧
    ((undo (handleDataUpdate ⟨[], some 0, []⟩ 1)).present = some 0 ∧
      (redo (undo (handleDataUpdate ⟨[], some 0, []⟩ 1))).present = some 1) ∧
    undo (HistoryState.mk ([] : List ℕ) (some 0) []) = ⟨[], some 0, []⟩ ∧
    redo (HistoryState.mk ([] : List ℕ) (some 0) []) = ⟨[], some 0, []⟩ :=
  ⟨rfl, c2_undo_redo.1 ℕ ⟨[], some 0, []⟩ 1 0 rfl,
    c2_undo_redo.2.1 ℕ ⟨[], some 0, []⟩ rfl,
    c2_undo_redo.2.2 ℕ ⟨[], some 0, []⟩ rfl⟩

/-- C5: in every reachable history state `|past| ≤ 50`; a push from a state
with `|past| < 50` appends the previous present to `past`, a push from a
full history (`|past| = 50`) additionally evicts the oldest entry, and in
both cases the new document becomes present and `future` is cleared. -/
theorem c5_history_bound :
    (∀ (α : Type) (h : HistoryState α), HistReachable h →
        h.past.length ≤ MAX_HISTORY) ∧
    (∀ (α : Type) (h : HistoryState α) (d p : α), h.present = some p →
      (h.past.length < MAX_HISTORY →
        handleDataUpdate h d = ⟨h.past ++ [p], some d, []⟩) ∧
      (h.past.length = MAX_HISTORY →
        handleDataUpdate h d = ⟨h.past.tail ++ [p], some d, []⟩)) := by
  constructor
  · intro α h hr
    have := histSum_le hr
    omega
  · intro α h d p hp
    constructor
    · intro hlt
      have hc : ¬ MAX_HISTORY < (h.past ++ [p]).length := by
        simp only [List.length_append, List.length_singleton]
        omega
      simp only [handleDataUpdate, hp, if_neg hc]
    · intro heq
      have hc : MAX_HISTORY < (h.past ++ [p]).length := by
        simp only [List.length_append, List.length_singleton]
        omega
      have htail : (h.past ++ [p]).tail = h.past.tail ++ [p] := by
        cases hpa : h.past with
        | nil => rw [hpa] at heq; simp [MAX_HISTORY] at heq
        | cons x xs => rfl
      simp only [handleDataUpdate, hp, if_pos hc, htail]

/-- C5 witness: the bound on a concrete reachable state, and a concrete
push below the bound. -/
theorem c5_history_bound_witness :
    (HistoryState.mk ([] : List ℕ) (some 0) []).past.length ≤ MAX_HISTORY ∧
    ((HistoryState.mk ([1] : List ℕ) (some 0) []).present = some 0 ∧
      (HistoryState.mk ([1] : List ℕ) (some 0) []).past.length < MAX_HISTORY ∧
      handleDataUpdate (HistoryState.mk ([1] : List ℕ) (some 0) []) 2
        = ⟨[1, 0], some 2, []⟩) :=
  ⟨c5_history_bound.1 ℕ ⟨[], some 0, []⟩ (HistReachable.load ⟨[], none, []⟩ 0 HistReachable.init),
    rfl, by decide,
    (c5_history_bound.2 ℕ ⟨[1], some 0, []⟩ 2 0 rfl).1 (by decide)⟩

theorem reorder_single_self {α : Type*} (xs : List α) (h : 2 < xs.length) :
    (reorderCore xs [2] 2).1 = xs := by
  have hnd : ([2] : List ℕ).Nodup := by simp
  have hb : ∀ i ∈ ([2] : List ℕ), i < xs.length := by
    intro i hi
    simp only [List.mem_singleton] at hi
    omega
  rw [reorderCore_eq_spec xs [2] 2 hnd hb]
  have hcnt : (([2] : List ℕ).filter fun i => decide (i < 2)) = [] := rfl
  have hstay : keepIdx (fun i => !(([2] : List ℕ).contains i)) 0 xs =
      xs.take 2 ++ xs.drop 3 := keepIdx_single_out xs 2 h
  have hmove : keepIdx (fun i => (([2] : List ℕ).contains i)) 0 xs =
      [xs.get ⟨2, h⟩] := keepIdx_single_in xs 2 h
  have hlen2 : (xs.take 2).length = 2 := by rw [List.length_take]; omega
  have hslen : (xs.take 2 ++ xs.drop 3).length = 2 + (xs.length - 3) := by
    rw [List.length_append, hlen2, List.length_drop]
  have hins : min (2 - (([2] : List ℕ).filter fun i => decide (i < 2)).length)
      (xs.take 2 ++ xs.drop 3).length = 2 := by
    rw [hcnt, hslen]
    simp only [List.length_nil]
    omega
  simp only [hstay, hmove, hins]
  rw [List.take_left' hlen2, List.drop_left' hlen2]
  rw [List.append_assoc, List.singleton_append, take_get_drop_eq xs 2 h]

/-- C1: the reorder engine, given the unfiltered item list, source-index set
`M` and target `T`, produces `stay.take adjustedT ++ move ++ stay.drop
adjustedT`, where `stay` keeps the non-moved items in order, `move` keeps
the moved items in ascending index order, and `adjustedT = T - |{m ∈ M :
m < T}|` clamped to `[0, |stay|]` (natural subtraction; the clamp's lower
bound is automatic).  In particular, moving `{2}` to target `2` is the
identity on every list on which index `2` exists, moving `{0}` to target
`3` on `[a,b,c,d]` yields `[b,c,a,d]`, and moving `{1,3}` to target `0`
yields `[b,d,a,c]`. -/
theorem c1_reorder_engine :
    (∀ (α : Type) (items : List α) (M : List ℕ) (T : ℕ), M.Nodup →
        (∀ i ∈ M, i < items.length) →
        reorderCore items M T =
          ((keepIdx (fun i => !(M.contains i)) 0 items).take
              (min (T - (M.filter fun i => decide (i < T)).length)
                (keepIdx (fun i => !(M.contains i)) 0 items).length) ++
            keepIdx (fun i => M.contains i) 0 items ++
            (keepIdx (fun i => !(M.contains i)) 0 items).drop
              (min (T - (M.filter fun i => decide (i < T)).length)
                (keepIdx (fun i => !(M.contains i)) 0 items).length),
           min (T - (M.filter fun i => decide (i < T)).length)
             (keepIdx (fun i => !(M.contains i)) 0 items).length,
           (keepIdx (fun i => M.contains i) 0 items).length)) ∧
    (∀ (α : Type) (xs : List α), 2 < xs.length → (reorderCore xs [2] 2).1 = xs) ∧
    (reorderCore ([0, 1, 2, 3] : List ℕ) [0] 3).1 = [1, 2, 0, 3] ∧
    (reorderCore ([0, 1, 2, 3] : List ℕ) [1, 3] 0).1 = [1, 3, 0, 2] :=
  ⟨fun _ items M T hnd hv => reorderCore_eq_spec items M T hnd hv,
   fun _ xs h => reorder_single_self xs h,
   by decide, by decide⟩

/-- C1 witness: the split-and-splice form and the self-insertion identity at
concrete inputs. -/
theorem c1_reorder_engine_witness :
    (([1, 3] : List ℕ).Nodup ∧ (∀ i ∈ ([1, 3] : List ℕ), i < 4) ∧
      (reorderCore ([10, 20, 30, 40] : List ℕ) [1, 3] 0).1 = [20, 40, 10, 30]) ∧
    (2 < ([5, 6, 7] : List ℕ).length ∧ (reorderCore ([5, 6, 7] : List ℕ) [2] 2).1 = [5, 6, 7]) := by
  refine ⟨⟨by decide, by decide, ?_⟩, by decide, c1_reorder_engine.2.1 ℕ [5, 6, 7] (by decide)⟩
  have h := c1_reorder_engine.1 ℕ [10, 20, 30, 40] [1, 3] 0 (by decide) (by decide)
  rw [h]
  decide

/-- C7: for every Document `D` and path `P` reachable by legal drills,
`set(D, P, get(D, P))` is structurally equal to `D` (the embedding's
rendering of reference equality on immutable values), and every sibling
subtree off the path is left untouched by a `set` along `P` (structural
sharing). -/
theorem c7_path_roundtrip_sharing :
    (∀ (d : Json) (P : List Key), legalPath d P = true →
        ∃ g, getPath d P = some g ∧ setDeep d P g = d) ∧
    (∀ (d : Json) (pre : List Key) (pk : Key) (suf : List Key) (v : Json) (j : Key),
        legalPath d (pre ++ pk :: suf) = true → j ≠ pk →
        getPath (setDeep d (pre ++ pk :: suf) v) (pre ++ [j])
          = getPath d (pre ++ [j])) := by
  constructor
  · intro d P hl
    obtain ⟨g, hg⟩ := getPath_isSome_of_legal P d hl
    exact ⟨g, hg, setDeep_getPath_self P d g hg⟩
  · intro d pre pk suf v j hl hj
    exact getPath_setDeep_offpath pre d pk suf v j hl hj

/-- C7 witness: no-op round trip and sharing on a concrete document. -/
theorem c7_path_roundtrip_sharing_witness :
    (legalPath (Json.obj [("a", Json.arr [Json.num 1, Json.num 2]), ("b", Json.num 7)])
        [Key.str "a", Key.idx 0] = true ∧
      ∃ g, getPath (Json.obj [("a", Json.arr [Json.num 1, Json.num 2]), ("b", Json.num 7)])
            [Key.str "a", Key.idx 0] = some g ∧
        setDeep (Json.obj [("a", Json.arr [Json.num 1, Json.num 2]), ("b", Json.num 7)])
            [Key.str "a", Key.idx 0] g
          = Json.obj [("a", Json.arr [Json.num 1, Json.num 2]), ("b", Json.num 7)]) ∧
    (Key.idx 1 ≠ Key.idx 0 ∧
      getPath (setDeep (Json.obj [("a", Json.arr [Json.num 1, Json.num 2]), ("b", Json.num 7)])
          [Key.str "a", Key.idx 0] (Json.num 9)) [Key.str "a", Key.idx 1]
        = getPath (Json.obj [("a", Json.arr [Json.num 1, Json.num 2]), ("b", Json.num 7)])
          [Key.str "a", Key.idx 1]) := by
  refine ⟨⟨rfl, c7_path_roundtrip_sharing.1 _ [Key.str "a", Key.idx 0] rfl⟩,
    by decide, ?_⟩
  exact c7_path_roundtrip_sharing.2 _ [Key.str "a"] (Key.idx 0) [] (Json.num 9)
    (Key.idx 1) rfl (by decide)

/-- C4, counterexample: the selection invariant does **not** hold in every
reachable state.  From a freshly reset two-item grid, ctrl-click item 1,
ctrl-click item 0 (selection `{1, 0}`, focus `0`), then shrink the list to
one item (e.g. by undo): the safety effect leaves the selection untouched
because the focus `0` is still in range, so the stale index `1` stays
selected while the list length is `1`. -/
theorem c4_selection_invariant_counterexample :
    SelReachable (SelState.mk ([10, 20] : List ℕ) [] none none)
        ⟨[10], [1, 0], some 0, some 0⟩ ∧
    ¬ (∀ i ∈ (SelState.mk ([10] : List ℕ) [1, 0] (some 0) (some 0)).selectedIndices,
        i < (SelState.mk ([10] : List ℕ) [1, 0] (some 0) (some 0)).items.length) :=
  ⟨⟨[SelEvent.ctrlClick 1, SelEvent.ctrlClick 0, SelEvent.dataChange [10]], by decide⟩,
    by decide⟩

/-- C4 (amended): after every transition the focused index, when present, is
strictly below the current list length; when the list shrinks the safety
effect clears focus and selection on an empty list and clamps an
out-of-range focus to the last index while dropping out-of-range selected
indices — but when the focus remains in range the selection is kept
unchanged, so it may retain out-of-range indices. -/
theorem c4_selection_clamp_amended :
    (∀ (α : Type) (s : SelState α) (e : SelEvent α) (f : ℕ),
        (selStep s e).focusedIndex = some f → f < (selStep s e).items.length) ∧
    (∀ (α : Type) (s : SelState α) (l : List α) (f : ℕ), s.focusedIndex = some f →
        (l = [] → selStep s (SelEvent.dataChange l) =
          ⟨l, [], none, s.anchorIndex⟩) ∧
        (l ≠ [] → l.length ≤ f → selStep s (SelEvent.dataChange l) =
          ⟨l, s.selectedIndices.filter fun i => decide (i < l.length),
            some (l.length - 1), s.anchorIndex⟩) ∧
        (f < l.length → selStep s (SelEvent.dataChange l) =
          ⟨l, s.selectedIndices, some f, s.anchorIndex⟩)) := by
  constructor
  · intro α s e f hf
    exact @clampSel_focus_lt (applyEvent s e).items.length
      (applyEvent s e).selectedIndices (applyEvent s e).focusedIndex f hf
  · intro α s l f hf
    refine ⟨?_, ?_, ?_⟩
    · intro hl
      subst hl
      simp [selStep, applyEvent, clampSel, hf]
    · intro hl hle
      have h0 : l.length ≠ 0 := fun h => hl (List.length_eq_zero.mp h)
      simp [selStep, applyEvent, clampSel, hf, h0, hle]
    · intro hlt
      have h0 : l.length ≠ 0 := by omega
      have hnle : ¬ l.length ≤ f := by omega
      simp [selStep, applyEvent, clampSel, hf, h0, hnle]

/-- C4 witness: focus validity after a concrete click, and a concrete shrink
that clamps focus and drops the out-of-range selected index. -/
theorem c4_selection_clamp_amended_witness :
    ((selStep (SelState.mk ([10, 20] : List ℕ) [] none none)
        (SelEvent.plainClick 1)).focusedIndex = some 1 ∧
      1 < (selStep (SelState.mk ([10, 20] : List ℕ) [] none none)
        (SelEvent.plainClick 1)).items.length) ∧
    ((SelState.mk ([10, 20] : List ℕ) [0, 1] (some 1) (some 1)).focusedIndex = some 1 ∧
      ([10] : List ℕ) ≠ [] ∧ ([10] : List ℕ).length ≤ 1 ∧
      selStep (SelState.mk ([10, 20] : List ℕ) [0, 1] (some 1) (some 1))
          (SelEvent.dataChange [10])
        = ⟨[10], [0], some 0, some 1⟩) := by
  refine ⟨⟨by decide, c4_selection_clamp_amended.1 ℕ ⟨[10, 20], [], none, none⟩
    (SelEvent.plainClick 1) 1 (by decide)⟩, rfl, by decide, by decide, ?_⟩
  have h := (c4_selection_clamp_amended.2 ℕ ⟨[10, 20], [0, 1], some 1, some 1⟩
    [10] 1 rfl).2.1 (by decide) (by decide)
  rw [h]
  decide

/-- C6: delete semantics.  With no explicit target, no selection and no
focus the delete is a no-op.  On an array container, the chosen view items'
true indices (their names) are removed from the array — the descending
splice removes exactly the elements at those indices; on an object
container the chosen entries are removed by key.  Afterwards the selection
is cleared and the focus moves to the smallest chosen view index, clamped
by the safety effect to the new, shorter list (cleared when the list
empties); the fourth conjunct states the full post-effect result for a
delete on an unfiltered array view, and the last two conjuncts are the
claim's concrete examples. -/
theorem c6_delete_semantics :
    (∀ cld : Json, deleteStep cld [] none none = (cld, [], none)) ∧
    (∀ (a : List Json) (currentData : List Item) (S : List ℕ) (focus : Option ℕ),
        S ≠ [] → S.Nodup → (∀ i ∈ S, i < currentData.length) →
        (∀ it ∈ currentData, ∃ j, it.name = Key.idx j ∧ j < a.length) →
        (currentData.map Item.name).Nodup →
        handleDelete currentData (Json.arr a) S focus none =
          (Json.arr (keepIdx (fun j => !((S.filterMap fun i =>
                (currentData.get? i).bind fun it => it.name.idxNat).contains j)) 0 a),
            [], some (minList S))) ∧
    (∀ (o : List (String × Json)) (currentData : List Item) (S : List ℕ)
        (focus : Option ℕ), S ≠ [] → (∀ i ∈ S, i < currentData.length) →
        handleDelete currentData (Json.obj o) S focus none =
          (Json.obj (o.filter fun p => !(((S.filterMap fun i =>
                currentData.get? i).map fun it => it.name.asString).contains p.1)),
            [], some (minList S))) ∧
    (∀ (a : List Json) (S : List ℕ) (focus : Option ℕ),
        S ≠ [] → S.Nodup → (∀ i ∈ S, i < a.length) →
        deleteStep (Json.arr a) S focus none =
          (Json.arr (keepIdx (fun j => !(S.contains j)) 0 a), [],
            if (keepIdx (fun j => !(S.contains j)) 0 a).length = 0 then none
            else some (min (minList S)
              ((keepIdx (fun j => !(S.contains j)) 0 a).length - 1)))) ∧
    deleteStep (Json.arr [Json.num 0, Json.num 1, Json.num 2]) [] none (some 1)
      = (Json.arr [Json.num 0, Json.num 2], [], some 1) ∧
    deleteStep (Json.arr [Json.num 0, Json.num 1, Json.num 2]) [0, 2] none none
      = (Json.arr [Json.num 1], [], some 0) := by
  refine ⟨?_, ?_, ?_, ?_, rfl, rfl⟩
  · intro cld
    rfl
  · intro a currentData S focus hS hSnd hSb hnames hnnd
    exact handleDelete_array_spec a currentData S focus hS hSnd hSb hnames hnnd
  · intro o currentData S focus hS hSb
    exact handleDelete_object_spec o currentData S focus hS hSb
  · intro a S focus hS hSnd hSb
    have hset := handleDelete_array_spec a (itemize (Json.arr a)) S focus hS hSnd
      (by rw [itemize_arr_length]; exact hSb) (itemize_arr_names_spec a)
      (itemize_arr_names_nodup a)
    rw [unfiltered_trueIdx a S hSb] at hset
    simp only [deleteStep, hset, itemize_arr_length, clampSel_empty_focus]

/-- C6 witness: the post-effect delete of selected indices `{0, 2}` from a
three-element array, and a no-op delete, via the claim's theorem. -/
theorem c6_delete_semantics_witness :
    (([0, 2] : List ℕ) ≠ [] ∧ ([0, 2] : List ℕ).Nodup ∧
      (∀ i ∈ ([0, 2] : List ℕ), i < 3) ∧
      deleteStep (Json.arr [Json.num 5, Json.num 6, Json.num 7]) [0, 2] none none
        = (Json.arr [Json.num 6], [], some 0)) ∧
    deleteStep (Json.str "leaf") [] none none = (Json.str "leaf", [], none) := by
  refine ⟨⟨by decide, by decide, by decide, ?_⟩,
    c6_delete_semantics.1 (Json.str "leaf")⟩
  have h := c6_delete_semantics.2.2.2.1 [Json.num 5, Json.num 6, Json.num 7]
    [0, 2] none (by decide) (by decide) (by decide)
  rw [h]
  rfl
